import Mathlib

/-!
Shallow embedding of the `influx` crate (InfluxDB line protocol and Flux
query building): `Measurement`/`Field`/`TagValue` from `src/lib.rs` and
`Query`/`Function` from `src/query.rs`.  Rust strings are modelled as
`List Char`.
-/

/-- Rust strings, modelled as lists of characters. -/
abbrev RStr := List Char

/-- Characters of a Lean string literal; used to transcribe Rust string literals. -/
def str (s : String) : RStr := s.data

/-- Rust `Vec::join` on strings: concatenate the elements with a separator
between consecutive elements. -/
def joinWith (sep : RStr) : List RStr → RStr
  | [] => []
  | [x] => x
  | x :: y :: xs => x ++ sep ++ joinWith sep (y :: xs)

namespace Influx

/-- Rust `str::replace` with a single-character pattern: every occurrence of
`c` is replaced by `r` (used by `TagValue::new` in `src/lib.rs`). -/
def replaceChar (s : RStr) (c : Char) (r : RStr) : RStr :=
  s.flatMap (fun a => if a = c then r else [a])

/-- `TagValue` (`src/lib.rs`): a tag value, stored already escaped. -/
structure TagValue where
  val : RStr
deriving DecidableEq

/-- `TagValue::new` (`src/lib.rs` lines 19-27): escape commas, then equals
signs, then spaces, each with a preceding backslash. -/
def TagValue.new (s : RStr) : TagValue :=
  ⟨replaceChar (replaceChar (replaceChar s ',' (str "\\,")) '=' (str "\\=")) ' ' (str "\\ ")⟩

/-- `Field` (`src/lib.rs`).  The `f64` payload of `Float` is represented by
the decimal text that `std`'s `Display` produces for it: that rendering is
performed entirely outside this crate, and the crate emits it verbatim. -/
inductive Field where
  | Float (text : RStr)
  | String (v : RStr)
  | Bool (v : Bool)
  | Integer (v : Int)
  | UInteger (v : Nat)
deriving DecidableEq

/-- Decimal rendering of an unsigned integer, as Rust `Display` for `u128`. -/
def natChars (n : Nat) : RStr := Nat.toDigits 10 n

/-- Decimal rendering of a signed integer, as Rust `Display` for `i128`. -/
def intChars (i : Int) : RStr :=
  if i < 0 then '-' :: natChars i.natAbs else natChars i.toNat

/-- Rust `Display` for `bool`. -/
def boolChars (b : Bool) : RStr := if b then str "true" else str "false"

/-- `impl Display for Field` (`src/lib.rs` lines 46-56). -/
def Field.render : Field → RStr
  | .Float text => text
  | .String v => str "\"" ++ v ++ str "\""
  | .Bool v => boolChars v
  | .Integer v => intChars v ++ str "i"
  | .UInteger v => natChars v ++ str "u"

/-- `Measurement` (`src/lib.rs`).  The two `HashMap`s are modelled as
association lists; `HashMap` iteration order is unspecified in Rust, and the
list order stands for the iteration order. -/
structure Measurement where
  measurement_name : RStr
  timestamp_ms : Nat
  tags : List (RStr × TagValue)
  fields : List (RStr × Field)
deriving DecidableEq

/-- `Measurement::tags_part`: `name=value` for each tag, joined with commas. -/
def Measurement.tags_part (m : Measurement) : RStr :=
  joinWith (str ",") (m.tags.map (fun p => p.1 ++ str "=" ++ p.2.val))

/-- `Measurement::fields_part`: `name=value` for each field, joined with commas. -/
def Measurement.fields_part (m : Measurement) : RStr :=
  joinWith (str ",") (m.fields.map (fun p => p.1 ++ str "=" ++ p.2.render))

/-- `Measurement::to_line_protocol` (`src/lib.rs` lines 198-216). -/
def Measurement.to_line_protocol (m : Measurement) : RStr :=
  if m.tags.isEmpty then
    m.measurement_name ++ str " " ++ m.fields_part ++ str " " ++ natChars m.timestamp_ms
  else
    m.measurement_name ++ str "," ++ m.tags_part ++ str " " ++ m.fields_part ++ str " "
      ++ natChars m.timestamp_ms

/-- `HashMap::insert`: replace the stored value when the key is present,
otherwise add the binding. -/
def mapInsert {α : Type} (m : List (RStr × α)) (k : RStr) (v : α) : List (RStr × α) :=
  if m.any (fun p => p.1 = k) then
    m.map (fun p => if p.1 = k then (k, v) else p)
  else m ++ [(k, v)]

/-- Rust `into_iter().collect::<HashMap<_, _>>()` over a list of pairs:
insert the pairs one by one into an empty map. -/
def collectMap {α : Type} (l : List (RStr × α)) : List (RStr × α) :=
  l.foldl (fun m p => mapInsert m p.1 p.2) []

/-- `MeasurementBuilder` (`src/lib.rs`): accumulated name, tags, fields and
optional explicit timestamp. -/
structure MeasurementBuilder where
  name : RStr
  tags : List (RStr × TagValue)
  fields : List (RStr × Field)
  timestamp : Option Nat

/-- `MeasurementBuilderError` (`src/lib.rs`). -/
inductive MeasurementBuilderError where
  | EmptyFields
  | SystemTimeError
deriving DecidableEq

/-- `MeasurementBuilder::tag`. -/
def MeasurementBuilder.tag (b : MeasurementBuilder) (name value : RStr) : MeasurementBuilder :=
  { b with tags := b.tags ++ [(name, TagValue.new value)] }

/-- `MeasurementBuilder::field`. -/
def MeasurementBuilder.field (b : MeasurementBuilder) (name : RStr) (value : Field) :
    MeasurementBuilder :=
  { b with fields := b.fields ++ [(name, value)] }

/-- `MeasurementBuilder::timestamp_ms`. -/
def MeasurementBuilder.timestamp_ms (b : MeasurementBuilder) (t : Nat) : MeasurementBuilder :=
  { b with timestamp := some t }

/-- `MeasurementBuilder::build` (`src/lib.rs` lines 250-268).  The system
clock read `SystemTime::now().duration_since(UNIX_EPOCH)` is passed in as the
explicit `clock` argument: `Except.ok t` models a successful read of `t`
milliseconds, `Except.error ()` a failed read.  The clock is consulted only
when no explicit timestamp was supplied. -/
def MeasurementBuilder.build (b : MeasurementBuilder) (clock : Except Unit Nat) :
    Except MeasurementBuilderError Measurement :=
  if b.fields.isEmpty then .error .EmptyFields
  else
    match b.timestamp with
    | some t => .ok ⟨b.name, t, collectMap b.tags, collectMap b.fields⟩
    | none =>
      match clock with
      | .ok t => .ok ⟨b.name, t, collectMap b.tags, collectMap b.fields⟩
      | .error _ => .error .SystemTimeError

/-- `OnEmpty` (`src/query.rs`). -/
inductive OnEmpty where
  | Keep
  | Drop

/-- `impl Display for OnEmpty`. -/
def OnEmpty.render : OnEmpty → RStr
  | .Keep => str "keep"
  | .Drop => str "drop"

/-- The `Function` stage enum (`src/query.rs`), restricted to the variants
this development reasons about. -/
inductive Function where
  | From (bucket : RStr)
  | Range (start : Nat) (stop : Option Nat)
  | Filter (function : RStr) (on_empty : Option OnEmpty)
  | Keep (columns : Option (List RStr)) (function : Option RStr)
  | Drop (columns : Option (List RStr)) (function : Option RStr)
  | Sort (columns : Option (List RStr)) (desc : Option Bool)

/-- `comma_join_strings` (`src/query.rs` lines 3-11): double-quote each
element and join with `", "`. -/
def comma_join_strings (v : List RStr) : RStr :=
  joinWith (str ", ") (v.map (fun c => str "\"" ++ c ++ str "\""))

/-- `impl Display for Function` (`src/query.rs` lines 530-690), for the
embedded variants.  The `Keep` and `Drop` arms panic on an invalid instance
(both or neither parameter supplied); a panic is modelled as `none`, so no
rendering is produced.  The `Sort` arm with only `desc` reproduces the
source's `write!(f, r#"sort(desc: {}"#, desc)`, which emits no closing
parenthesis. -/
def Function.render : Function → Option RStr
  | .From bucket => some (str "from(bucket: \"" ++ bucket ++ str "\")")
  | .Range start stop =>
    match stop with
    | some st =>
      some (str "range(start: " ++ natChars start ++ str ", stop: " ++ natChars st ++ str ")")
    | none => some (str "range(start: " ++ natChars start ++ str ")")
  | .Filter function on_empty =>
    match on_empty with
    | some oe =>
      some (str "filter(fn: " ++ function ++ str ", onEmpty: \"" ++ oe.render ++ str "\")")
    | none => some (str "filter(fn: " ++ function ++ str ")")
  | .Keep columns function =>
    match columns, function with
    | none, some f => some (str "keep(fn: \"" ++ f ++ str "\")")
    | some cs, none => some (str "keep(columns: [" ++ comma_join_strings cs ++ str "])")
    | _, _ => none
  | .Drop columns function =>
    match columns, function with
    | some cs, none => some (str "drop(columns: [" ++ comma_join_strings cs ++ str "])")
    | none, some f => some (str "drop(fn: \"" ++ f ++ str "\")")
    | _, _ => none
  | .Sort columns desc =>
    match columns, desc with
    | none, none => some (str "sort()")
    | none, some d => some (str "sort(desc: " ++ boolChars d)
    | some cs, none => some (str "sort(columns: [" ++ comma_join_strings cs ++ str "])")
    | some cs, some d =>
      some (str "sort(columns: [" ++ comma_join_strings cs ++ str "], desc: " ++ boolChars d
        ++ str ")")

/-- `Query` (`src/query.rs`): the list of rendered stage lines. -/
structure Query where
  lines : List RStr
deriving DecidableEq

/-- `Query::new`. -/
def Query.new : Query := ⟨[]⟩

/-- `Query::with_text`: push a stage line verbatim. -/
def Query.with_text (q : Query) (text : RStr) : Query := ⟨q.lines ++ [text]⟩

/-- `Query::with`: push the stage's rendering; a stage whose rendering panics
aborts the whole append, so no new query is produced (`none`). -/
def Query.withFn (q : Query) (f : Function) : Option Query :=
  (f.render).map (fun l => ⟨q.lines ++ [l]⟩)

/-- `Query::from` (named `from_bucket` here because `from` is a Lean keyword). -/
def Query.from_bucket (q : Query) (bucket : RStr) : Option Query :=
  q.withFn (.From bucket)

/-- `Query::range`. -/
def Query.range (q : Query) (start : Nat) (stop : Option Nat) : Option Query :=
  q.withFn (.Range start stop)

/-- `Query::filter`. -/
def Query.filter (q : Query) (function : RStr) (on_empty : Option OnEmpty) : Option Query :=
  q.withFn (.Filter function on_empty)

/-- `Query::keep` (`src/query.rs` lines 136-149). -/
def Query.keep (q : Query) (columns : Option (List RStr)) (function : Option RStr) :
    Option Query :=
  q.withFn (.Keep columns function)

/-- `Query::drop` (`src/query.rs` lines 158-171). -/
def Query.drop (q : Query) (columns : Option (List RStr)) (function : Option RStr) :
    Option Query :=
  q.withFn (.Drop columns function)

/-- `Query::sort` (`src/query.rs` lines 269-273). -/
def Query.sort (q : Query) (columns : Option (List RStr)) (desc : Option Bool) : Option Query :=
  q.withFn (.Sort columns desc)

/-- `impl Display for Query` (`src/query.rs` lines 383-395): join the stage
lines with `"\n |> "`. -/
def Query.display (q : Query) : RStr := joinWith (str "\n |> ") q.lines

/-- Split at every newline character; the parts do not contain the
terminating newlines (Rust `str::split('\n')`). -/
def splitNl : RStr → List RStr
  | [] => [[]]
  | c :: rest =>
    if c = '\n' then [] :: splitNl rest
    else
      match splitNl rest with
      | [] => [[c]]
      | p :: ps => (c :: p) :: ps

/-- Remove one trailing carriage return if present (Rust `strip_suffix('\r')`). -/
def stripCR : RStr → RStr
  | [] => []
  | [c] => if c = '\r' then [] else [c]
  | c :: d :: rest => c :: stripCR (d :: rest)

/-- Helper for `rustLines`: every part except the last was newline-terminated
and gets a trailing carriage return stripped; the final unterminated part is
kept verbatim unless it is empty, in which case it is dropped. -/
def rustLinesAux : List RStr → List RStr
  | [] => []
  | [last] => if last = [] then [] else [last]
  | p :: q :: rest => stripCR p :: rustLinesAux (q :: rest)

/-- Rust `str::lines`. -/
def rustLines (s : RStr) : List RStr := rustLinesAux (splitNl s)

/-- `Query::raw` (`src/query.rs` lines 42-45): one stage line per line of the
input string. -/
def Query.raw (s : RStr) : Query := ⟨rustLines s⟩

/-- Weight of a character in the rejoin measure: carriage returns count
twice, every other character once. -/
def cw (c : Char) : Nat := if c = '\r' then 2 else 1

/-- The rejoin measure of a string: the sum of its character weights. -/
def mu (l : RStr) : Nat := (l.map cw).sum

/-- Modelled from the spec, for comparison with `TagValue::new`: escape each
reserved character (comma, equals sign, space) with a preceding backslash,
in one simultaneous pass and with no over-escaping. -/
def specEscapeChar (c : Char) : RStr :=
  if c = ',' ∨ c = '=' ∨ c = ' ' then ['\\', c] else [c]

theorem replaceChar_nil (c : Char) (r : RStr) : replaceChar [] c r = [] := rfl

theorem replaceChar_cons (a : Char) (t : RStr) (c : Char) (r : RStr) :
    replaceChar (a :: t) c r = (if a = c then r else [a]) ++ replaceChar t c r := by
  simp [replaceChar]

theorem replaceChar_append (s u : RStr) (c : Char) (r : RStr) :
    replaceChar (s ++ u) c r = replaceChar s c r ++ replaceChar u c r := by
  simp [replaceChar]

theorem escape_single (a : Char) :
    replaceChar (replaceChar (replaceChar [a] ',' (str "\\,")) '=' (str "\\=")) ' '
        (str "\\ ")
      = specEscapeChar a := by
  by_cases hc : a = ','
  · subst hc; decide
  · by_cases he : a = '='
    · subst he; decide
    · by_cases hs : a = ' '
      · subst hs; decide
      · simp [replaceChar, specEscapeChar, hc, he, hs]

theorem tagValue_new_flatMap (s : RStr) :
    (TagValue.new s).val = s.flatMap specEscapeChar := by
  induction s with
  | nil => rfl
  | cons a t ih =>
    have step : TagValue.new (a :: t)
        = ⟨replaceChar (replaceChar (replaceChar [a] ',' (str "\\,")) '=' (str "\\="))
            ' ' (str "\\ ") ++ (TagValue.new t).val⟩ := by
      simp [TagValue.new, replaceChar_cons, replaceChar_append]
      rfl
    rw [step]
    simp only [List.flatMap_cons]
    rw [escape_single, ih]

theorem flatMap_specEscape_id (s : RStr) (h : ∀ c ∈ s, c ≠ ',' ∧ c ≠ '=' ∧ c ≠ ' ') :
    s.flatMap specEscapeChar = s := by
  induction s with
  | nil => rfl
  | cons a t ih =>
    have ha := h a (by simp)
    have : specEscapeChar a = [a] := by
      simp [specEscapeChar]
      tauto
    simp only [List.flatMap_cons, this, List.singleton_append, List.cons.injEq, true_and]
    exact ih (fun c hc => h c (by simp [hc]))

/-- Claim C2: constructing a tag value escapes each comma, equals sign, and
space with a preceding backslash, applying the replacements in the order
comma, equals sign, space; the sequential replacement equals a single
simultaneous per-character escaping pass (no over-escaping), an input with
none of the three reserved characters is stored unchanged, and
`"KHTML, like Gecko"` is stored as `KHTML\\,\\ like\\ Gecko`. -/
theorem tag_value_escaping :
    (∀ s : RStr, (TagValue.new s).val = s.flatMap specEscapeChar) ∧
    (∀ s : RStr, (∀ c ∈ s, c ≠ ',' ∧ c ≠ '=' ∧ c ≠ ' ') → (TagValue.new s).val = s) ∧
    (TagValue.new (str "KHTML, like Gecko")).val = str "KHTML\\,\\ like\\ Gecko" := by
  refine ⟨tagValue_new_flatMap, ?_, by decide⟩
  intro s h
  rw [tagValue_new_flatMap, flatMap_specEscape_id s h]

/-- Claim C2 witness: a concrete reserved-character-free input is stored
unchanged. -/
theorem tag_value_escaping_witness :
    (TagValue.new (str "abc")).val = str "abc" :=
  tag_value_escaping.2.1 (str "abc") (by decide)

/-- Claim C6: field rendering is determined by the variant alone: `Integer`
renders its decimal digits followed by `i`, `UInteger` decimal digits
followed by `u`, `Bool` the literal `true`/`false`, `String` the value in
double quotes with no internal escaping, and `Float` the decimal textual
form with no suffix. -/
theorem field_render_by_variant :
    (∀ v : Int, Field.render (.Integer v) = intChars v ++ str "i") ∧
    (∀ v : Nat, Field.render (.UInteger v) = natChars v ++ str "u") ∧
    Field.render (.Bool true) = str "true" ∧
    Field.render (.Bool false) = str "false" ∧
    (∀ v : RStr, Field.render (.String v) = str "\"" ++ v ++ str "\"") ∧
    (∀ t : RStr, Field.render (.Float t) = t) ∧
    Field.render (.Integer (-100)) = str "-100i" ∧
    Field.render (.UInteger 100) = str "100u" ∧
    Field.render (.String (str "x")) = str "\"x\"" ∧
    Field.render (.Float (str "10.123")) = str "10.123" := by
  refine ⟨fun v => rfl, fun v => rfl, rfl, rfl, fun v => rfl, fun t => rfl, ?_, ?_, ?_, ?_⟩
    <;> decide

/-- Claim C3 (code bug): the `Sort` display arm for `columns = None`,
`desc = Some(b)` emits `sort(desc: b` with no closing parenthesis, unlike
every other arm; evaluating the embedded display at the failing inputs. -/
theorem sort_desc_missing_paren :
    Function.render (.Sort none (some true)) = some (str "sort(desc: true") ∧
    Function.render (.Sort none (some false)) = some (str "sort(desc: false") ∧
    Function.render (.Sort none none) = some (str "sort()") ∧
    Function.render (.Sort (some [str "a"]) none) = some (str "sort(columns: [\"a\"])") ∧
    Function.render (.Sort (some [str "a"]) (some true))
      = some (str "sort(columns: [\"a\"], desc: true)") := by
  refine ⟨rfl, rfl, rfl, ?_, ?_⟩ <;> decide

/-- Claim C4: for `Keep` and `Drop`, supplying both a columns list and a
predicate, or neither, aborts (modelled as `none`) before any rendering is
produced; supplying exactly one succeeds and renders
`keep(columns: [...])`/`drop(columns: [...])` or `keep(fn: "...")`/
`drop(fn: "...")`. -/
theorem keep_drop_both_or_neither_aborts :
    (∀ (q : Query) (cs : List RStr) (f : RStr),
      q.keep (some cs) (some f) = none ∧ q.drop (some cs) (some f) = none) ∧
    (∀ q : Query, q.keep none none = none ∧ q.drop none none = none) ∧
    (∀ (q : Query) (cs : List RStr),
      q.keep (some cs) none
          = some ⟨q.lines ++ [str "keep(columns: [" ++ comma_join_strings cs ++ str "])"]⟩ ∧
        q.drop (some cs) none
          = some ⟨q.lines ++ [str "drop(columns: [" ++ comma_join_strings cs ++ str "])"]⟩) ∧
    (∀ (q : Query) (f : RStr),
      q.keep none (some f) = some ⟨q.lines ++ [str "keep(fn: \"" ++ f ++ str "\")"]⟩ ∧
        q.drop none (some f) = some ⟨q.lines ++ [str "drop(fn: \"" ++ f ++ str "\")"]⟩) :=
  ⟨fun _ _ _ => ⟨rfl, rfl⟩, fun _ => ⟨rfl, rfl⟩, fun _ _ => ⟨rfl, rfl⟩, fun _ _ => ⟨rfl, rfl⟩⟩

/-- Claim C7: rendering a query joins its stage lines, in order, with the
five-character separator `"\n |> "`; the empty stage list renders to the
empty string. -/
theorem query_display_joins_lines :
    Query.display Query.new = [] ∧
    (∀ a : RStr, Query.display ⟨[a]⟩ = a) ∧
    (∀ (a b : RStr) (rest : List RStr),
      Query.display ⟨a :: b :: rest⟩ = a ++ str "\n |> " ++ Query.display ⟨b :: rest⟩) :=
  ⟨rfl, fun _ => rfl, fun _ _ _ => rfl⟩

/-- Claim C8: starting from the empty query, appending stage A then stage B
renders as the rendering with only A, followed by the separator, followed by
stage B's own rendering. -/
theorem query_append_render_compositional (A B : RStr) :
    ((Query.new.with_text A).with_text B).display
      = (Query.new.with_text A).display ++ str "\n |> " ++ B := rfl

/-- Claim C9: chaining `from` (bucket `server`), `range` (start 100, stop
200) and `filter` (predicate text `X`, on-empty drop) from the empty query
renders the literal three-stage pipe string. -/
theorem query_chain_from_range_filter (X : RStr) :
    Option.map Query.display
        (((Query.new.from_bucket (str "server")).bind (fun q => q.range 100 (some 200))).bind
          (fun q => q.filter X (some OnEmpty.Drop)))
      = some (str "from(bucket: \"server\")\n |> range(start: 100, stop: 200)\n |> filter(fn: "
          ++ X ++ str ", onEmpty: \"" ++ str "drop" ++ str "\")") := rfl

/-- Claim C5: `MeasurementBuilder::build` fails with `EmptyFields` if and
only if no field was added, for every name, tag list, timestamp and clock
outcome; and with at least one field and an explicit timestamp it returns
`Ok` with the accumulated name, the collected tag and field maps, and that
timestamp, whatever the clock reads (the clock is not consulted). -/
theorem builder_build_empty_iff_explicit_ts :
    (∀ (b : MeasurementBuilder) (clock : Except Unit Nat),
      b.build clock = .error .EmptyFields ↔ b.fields = []) ∧
    (∀ (b : MeasurementBuilder) (t : Nat) (clock : Except Unit Nat),
      b.fields ≠ [] → b.timestamp = some t →
      b.build clock = .ok ⟨b.name, t, collectMap b.tags, collectMap b.fields⟩) := by
  constructor
  · intro b clock
    constructor
    · intro h
      by_contra hne
      rw [MeasurementBuilder.build.eq_def, if_neg (by simpa [List.isEmpty_iff] using hne)] at h
      rcases hb : b.timestamp with _ | t
      · rw [hb] at h
        rcases clock with e | t2
        · simp at h
        · simp at h
      · rw [hb] at h
        simp at h
    · intro h
      rw [MeasurementBuilder.build.eq_def, if_pos (by simp [h, List.isEmpty_iff])]
  · intro b t clock hne hts
    rw [MeasurementBuilder.build.eq_def, if_neg (by simpa [List.isEmpty_iff] using hne), hts]

/-- Claim C5 witness: a concrete builder with one field and an explicit
timestamp builds successfully even when the clock read fails. -/
theorem builder_build_witness :
    MeasurementBuilder.build ⟨str "m", [], [(str "f", Field.Bool true)], some 5⟩ (.error ())
      = .ok ⟨str "m", 5, [], [(str "f", Field.Bool true)]⟩ :=
  builder_build_empty_iff_explicit_ts.2
    ⟨str "m", [], [(str "f", Field.Bool true)], some 5⟩ 5 (.error ()) (by decide) rfl

theorem digitChar_ne_newline (n : Nat) : Nat.digitChar n ≠ '\n' := by
  by_cases h : n < 16
  · interval_cases n <;> decide
  · unfold Nat.digitChar
    repeat rw [if_neg (by omega)]
    decide

theorem toDigitsCore_ne_newline :
    ∀ (fuel n : Nat) (ds : List Char), (∀ c ∈ ds, c ≠ '\n') →
      ∀ c ∈ Nat.toDigitsCore 10 fuel n ds, c ≠ '\n' := by
  intro fuel
  induction fuel with
  | zero => intro n ds h c hc; exact h c hc
  | succ f ih =>
    intro n ds h c hc
    simp only [Nat.toDigitsCore] at hc
    split at hc
    · rcases List.mem_cons.mp hc with rfl | hmem
      · exact digitChar_ne_newline _
      · exact h c hmem
    · refine ih _ _ ?_ c hc
      intro c2 hc2
      rcases List.mem_cons.mp hc2 with rfl | hmem
      · exact digitChar_ne_newline _
      · exact h c2 hmem

theorem natChars_ne_newline (n : Nat) : '\n' ∉ natChars n := by
  intro h
  exact toDigitsCore_ne_newline (n + 1) n [] (by simp) '\n' h rfl

theorem mem_joinWith {c : Char} {sep : RStr} :
    ∀ {ps : List RStr}, c ∈ joinWith sep ps → c ∈ sep ∨ ∃ p ∈ ps, c ∈ p := by
  intro ps
  induction ps with
  | nil => intro h; simp [joinWith] at h
  | cons x xs ih =>
    cases xs with
    | nil =>
      intro h
      rw [joinWith] at h
      exact Or.inr ⟨x, by simp, h⟩
    | cons y ys =>
      intro h
      rw [joinWith] at h
      rcases List.mem_append.mp h with h1 | h2
      · rcases List.mem_append.mp h1 with hx | hs
        · exact Or.inr ⟨x, by simp, hx⟩
        · exact Or.inl hs
      · rcases ih h2 with hs | ⟨p, hp, hcp⟩
        · exact Or.inl hs
        · exact Or.inr ⟨p, List.mem_cons_of_mem x hp, hcp⟩

theorem newline_not_in_part {α : Type} {l : List (RStr × α)} (g : α → RStr)
    (h : ∀ p ∈ l, '\n' ∉ p.1 ∧ '\n' ∉ g p.2) :
    '\n' ∉ joinWith (str ",") (l.map (fun p => p.1 ++ (str "=" ++ g p.2))) := by
  intro hmem
  rcases mem_joinWith hmem with hs | ⟨p, hp, hcp⟩
  · exact absurd hs (by decide)
  · rcases List.mem_map.mp hp with ⟨q, hq, rfl⟩
    rcases List.mem_append.mp hcp with h1 | h2
    · exact (h q hq).1 h1
    · rcases List.mem_append.mp h2 with ha | hb
      · exact absurd ha (by decide)
      · exact (h q hq).2 hb

theorem tagValue_new_no_newline (s : RStr) (h : '\n' ∉ s) : '\n' ∉ (TagValue.new s).val := by
  rw [tagValue_new_flatMap]
  intro hmem
  rcases List.mem_flatMap.mp hmem with ⟨a, ha, hfa⟩
  by_cases hr : a = ',' ∨ a = '=' ∨ a = ' '
  · rw [specEscapeChar, if_pos hr] at hfa
    rcases List.mem_cons.mp hfa with h1 | h2
    · exact absurd h1 (by decide)
    · rcases List.mem_singleton.mp h2 with rfl
      exact h ha
  · rw [specEscapeChar, if_neg hr] at hfa
    rcases List.mem_singleton.mp hfa with rfl
    exact h ha

/-- Claim C1 (amended): for every measurement with a non-empty field map,
`to_line_protocol` is the single string
`NAME[,TAG=VAL,...] FIELD=VAL[,FIELD=VAL...] TIMESTAMP` — the comma after
the name appears exactly when the tag map is non-empty, single spaces
separate the sections, and the timestamp is the decimal milliseconds — and
the result contains no newline provided the name, tag names, stored tag
values, field names and rendered field values contain none; tag-value
escaping never introduces a newline. -/
theorem measurement_line_protocol_shape (m : Measurement) (_hf : m.fields ≠ []) :
    (m.to_line_protocol
      = m.measurement_name
        ++ (if m.tags = [] then [] else
              str "," ++ joinWith (str ",") (m.tags.map (fun p => p.1 ++ str "=" ++ p.2.val)))
        ++ str " " ++ joinWith (str ",") (m.fields.map (fun p => p.1 ++ str "=" ++ p.2.render))
        ++ str " " ++ natChars m.timestamp_ms) ∧
    (('\n' ∉ m.measurement_name ∧
        (∀ p ∈ m.tags, '\n' ∉ p.1 ∧ '\n' ∉ p.2.val) ∧
        (∀ p ∈ m.fields, '\n' ∉ p.1 ∧ '\n' ∉ p.2.render)) →
      '\n' ∉ m.to_line_protocol) ∧
    (∀ s : RStr, '\n' ∉ s → '\n' ∉ (TagValue.new s).val) := by
  refine ⟨?_, ?_, tagValue_new_no_newline⟩
  · by_cases ht : m.tags = []
    · simp [Measurement.to_line_protocol, Measurement.fields_part, ht, List.append_assoc]
    · simp [Measurement.to_line_protocol, Measurement.tags_part, Measurement.fields_part, ht,
        List.append_assoc]
  · rintro ⟨hn, htags, hfields⟩ hmem
    simp only [Measurement.to_line_protocol] at hmem
    split at hmem
    · simp only [Measurement.fields_part, List.append_assoc, List.mem_append] at hmem
      rcases hmem with h1 | h2 | h3 | h4 | h5
      · exact hn h1
      · exact absurd h2 (by decide)
      · exact newline_not_in_part Field.render hfields h3
      · exact absurd h4 (by decide)
      · exact natChars_ne_newline m.timestamp_ms h5
    · simp only [Measurement.tags_part, Measurement.fields_part, List.append_assoc,
        List.mem_append] at hmem
      rcases hmem with h1 | h2 | h3 | h4 | h5 | h6 | h7
      · exact hn h1
      · exact absurd h2 (by decide)
      · exact newline_not_in_part TagValue.val htags h3
      · exact absurd h4 (by decide)
      · exact newline_not_in_part Field.render hfields h5
      · exact absurd h6 (by decide)
      · exact natChars_ne_newline m.timestamp_ms h7

/-- Claim C1 counterexample: a measurement whose name contains a newline has
a non-empty field map, yet its line-protocol rendering embeds a newline, so
the unconditional no-newline claim is false. -/
theorem measurement_newline_counterexample :
    (Measurement.mk (str "a\nb") 0 [] [(str "f", Field.Bool true)]).fields ≠ [] ∧
    '\n' ∈ (Measurement.mk (str "a\nb") 0 [] [(str "f", Field.Bool true)]).to_line_protocol := by
  decide

/-- Claim C1 witness: a concrete newline-free measurement renders with the
claimed shape and without newlines. -/
theorem measurement_line_protocol_witness :
    '\n' ∉ (Measurement.mk (str "m") 7 [(str "t", TagValue.new (str "v"))]
        [(str "f", Field.UInteger 1)]).to_line_protocol :=
  (measurement_line_protocol_shape
      (Measurement.mk (str "m") 7 [(str "t", TagValue.new (str "v"))]
        [(str "f", Field.UInteger 1)]) (by decide)).2.1 (by decide)

theorem mu_append (a b : RStr) : mu (a ++ b) = mu a + mu b := by
  simp [mu]

theorem mu_cons (c : Char) (t : RStr) : mu (c :: t) = cw c + mu t := by
  simp [mu]

theorem splitNl_ne_nil (s : RStr) : splitNl s ≠ [] := by
  cases s with
  | nil => simp [splitNl]
  | cons c rest =>
    simp only [splitNl]
    split
    · simp
    · split <;> simp

theorem splitNl_no_newline (s : RStr) (h : '\n' ∉ s) : splitNl s = [s] := by
  induction s with
  | nil => rfl
  | cons c rest ih =>
    have hc : ¬ c = '\n' := by
      intro hh
      exact h (by simp [hh])
    have hr : '\n' ∉ rest := fun hm => h (List.mem_cons_of_mem c hm)
    simp only [splitNl, if_neg hc, ih hr]

theorem splitNl_length (s : RStr) : (splitNl s).length = s.count '\n' + 1 := by
  induction s with
  | nil => simp [splitNl]
  | cons c rest ih =>
    by_cases hc : c = '\n'
    · subst hc
      simp [splitNl, ih, List.count_cons]
    · simp only [splitNl, if_neg hc]
      cases h : splitNl rest with
      | nil => exact absurd h (splitNl_ne_nil rest)
      | cons p ps =>
        rw [h] at ih
        simp only [List.length_cons] at ih ⊢
        simp [List.count_cons, hc]
        omega

theorem splitNl_mu (s : RStr) :
    ((splitNl s).map mu).sum + (splitNl s).length = mu s + 1 := by
  induction s with
  | nil => simp [splitNl, mu]
  | cons c rest ih =>
    by_cases hc : c = '\n'
    · subst hc
      have hsp : splitNl ('\n' :: rest) = [] :: splitNl rest := by
        simp [splitNl]
      rw [hsp]
      simp only [List.map_cons, List.sum_cons, List.length_cons, mu_cons]
      have h0 : mu ([] : RStr) = 0 := rfl
      have hcw : cw '\n' = 1 := rfl
      omega
    · simp only [splitNl, if_neg hc]
      cases h : splitNl rest with
      | nil => exact absurd h (splitNl_ne_nil rest)
      | cons p ps =>
        rw [h] at ih
        simp only [List.map_cons, List.sum_cons, List.length_cons, mu_cons] at ih ⊢
        omega

theorem mu_joinWith_qsep :
    ∀ qs : List RStr, qs ≠ [] →
      mu (joinWith (str "\n |> ") qs) + 5 = (qs.map mu).sum + 5 * qs.length := by
  intro qs
  induction qs with
  | nil => intro h; exact absurd rfl h
  | cons x xs ih =>
    intro _
    cases xs with
    | nil => simp [joinWith, mu]
    | cons y ys =>
      have hih := ih (by simp)
      have hsep : mu (str "\n |> ") = 5 := by decide
      simp only [joinWith, mu_append, hsep, List.map_cons, List.sum_cons,
        List.length_cons] at hih ⊢
      omega

theorem stripCR_mu (p : RStr) :
    mu (stripCR p) = mu p ∨ mu (stripCR p) + 2 = mu p := by
  induction p with
  | nil => left; rfl
  | cons c t ih =>
    cases t with
    | nil =>
      by_cases hc : c = '\r'
      · subst hc
        right
        decide
      · left
        simp [stripCR, hc]
    | cons d u =>
      rcases ih with h | h
      · left
        simp only [stripCR, mu_cons, h]
      · right
        simp only [stripCR, mu_cons] at h ⊢
        omega

theorem stripCR_map_mu (init : List RStr) :
    ∃ d, (init.map (fun p => mu (stripCR p))).sum + d = (init.map mu).sum ∧
      d % 2 = 0 ∧ d ≤ 2 * init.length := by
  induction init with
  | nil => exact ⟨0, by simp, by simp, by simp⟩
  | cons p ps ih =>
    rcases ih with ⟨d, hd, hpar, hle⟩
    rcases stripCR_mu p with h | h
    · refine ⟨d, ?_, hpar, ?_⟩
      · simp only [List.map_cons, List.sum_cons]
        omega
      · simp only [List.length_cons]
        omega
    · refine ⟨d + 2, ?_, ?_, ?_⟩
      · simp only [List.map_cons, List.sum_cons]
        omega
      · omega
      · simp only [List.length_cons]
        omega

theorem rustLinesAux_concat (init : List RStr) (last : RStr) :
    rustLinesAux (init ++ [last])
      = init.map stripCR ++ (if last = [] then [] else [last]) := by
  induction init with
  | nil => simp [rustLinesAux]
  | cons p ps ih =>
    cases hps : ps ++ [last] with
    | nil => exact absurd hps (by simp)
    | cons q rest =>
      calc rustLinesAux ((p :: ps) ++ [last]) = rustLinesAux (p :: q :: rest) := by
              rw [List.cons_append, hps]
        _ = stripCR p :: rustLinesAux (q :: rest) := rfl
        _ = stripCR p :: rustLinesAux (ps ++ [last]) := by rw [hps]
        _ = stripCR p :: (ps.map stripCR ++ (if last = [] then [] else [last])) := by rw [ih]
        _ = (p :: ps).map stripCR ++ (if last = [] then [] else [last]) := by simp

theorem raw_display_no_newline (s : RStr) (h : '\n' ∉ s) : (Query.raw s).display = s := by
  have hs := splitNl_no_newline s h
  cases s with
  | nil => rfl
  | cons c rest =>
    show joinWith (str "\n |> ") (rustLinesAux (splitNl (c :: rest))) = c :: rest
    rw [hs]
    simp [rustLinesAux, joinWith]

theorem raw_display_ne_of_newline (s : RStr) (h : '\n' ∈ s) :
    (Query.raw s).display ≠ s := by
  intro heq
  have hmu : mu ((Query.raw s).display) = mu s := congrArg mu heq
  obtain hsplit | ⟨init, last, hps⟩ := List.eq_nil_or_concat (splitNl s)
  · exact splitNl_ne_nil s hsplit
  · rw [List.concat_eq_append] at hps
    have hlen : (splitNl s).length = s.count '\n' + 1 := splitNl_length s
    have hcnt : 0 < s.count '\n' := List.count_pos_iff.mpr h
    have hI : 1 ≤ init.length := by
      rw [hps] at hlen
      simp only [List.length_append, List.length_cons, List.length_nil] at hlen
      omega
    have hmus := splitNl_mu s
    rw [hps] at hmus
    simp only [List.map_append, List.sum_append, List.length_append, List.map_cons,
      List.sum_cons, List.length_cons, List.length_nil, List.map_nil, List.sum_nil] at hmus
    obtain ⟨d, hd, hpar, hle⟩ := stripCR_map_mu init
    have hdisp : (Query.raw s).display
        = joinWith (str "\n |> ")
            (init.map stripCR ++ (if last = [] then [] else [last])) := by
      show joinWith (str "\n |> ") (rustLinesAux (splitNl s)) = _
      rw [hps, rustLinesAux_concat]
    rw [hdisp] at hmu
    have hmapmap : ((init.map stripCR).map mu).sum
        = (init.map (fun p => mu (stripCR p))).sum := by
      rw [List.map_map]
      rfl
    by_cases hl : last = []
    · subst hl
      rw [if_pos rfl, List.append_nil] at hmu
      have hne : init.map stripCR ≠ [] := by
        intro hcon
        rw [List.map_eq_nil_iff] at hcon
        subst hcon
        simp at hI
      have hjoin := mu_joinWith_qsep (init.map stripCR) hne
      rw [hmapmap, List.length_map] at hjoin
      have hmu_nil : mu ([] : RStr) = 0 := rfl
      omega
    · rw [if_neg hl] at hmu
      have hne : init.map stripCR ++ [last] ≠ [] := by simp
      have hjoin := mu_joinWith_qsep (init.map stripCR ++ [last]) hne
      simp only [List.map_append, List.sum_append, List.length_append, List.map_cons,
        List.sum_cons, List.length_cons, List.length_nil, List.map_nil, List.sum_nil,
        List.length_map] at hjoin
      rw [hmapmap] at hjoin
      omega

/-- Claim C10 (amended): rendering `Query::raw(s)` yields the lines of `s`
(as Rust `str::lines` computes them) rejoined with the separator `"\n |> "`;
the round-trip through `raw` and render is the identity exactly for inputs
without newline characters, and for every `s` containing a newline the
round-trip does not return `s` unchanged. -/
theorem raw_roundtrip_spec :
    (∀ s : RStr, (Query.raw s).display = joinWith (str "\n |> ") (rustLines s)) ∧
    (∀ s : RStr, (Query.raw s).display = s ↔ '\n' ∉ s) := by
  refine ⟨fun _ => rfl, fun s => ⟨?_, raw_display_no_newline s⟩⟩
  intro heq
  by_contra hmem
  exact raw_display_ne_of_newline s (by simpa using hmem) heq

/-- Claim C10 counterexample: for `s = "a\n"` the round-trip yields `"a"`:
nothing is inserted after the newline (the result contains no pipe character
at all, so no `" |> "`), and the result differs from `s`; the claim's
"inserts \" |> \" after each newline" is therefore false at this input. -/
theorem raw_roundtrip_counterexample :
    (Query.raw (str "a\n")).display = str "a" ∧
    '|' ∉ (Query.raw (str "a\n")).display ∧
    (Query.raw (str "a\n")).display ≠ str "a\n" := by
  decide

end Influx
